import Mathlib

/-!
Verification of the ov6 file-system core against its specification.

The repository's src/ tree holds the headers (src/kernel/fs.h,
src/kernel/param.h, src/kernel/defs.h): the constants below are taken
from them directly.  The bodies of log.c, bio.c and fs.c are not part of
src/, so the operations (recovery, log_write, bget/brelse, iput, itrunc,
readi/writei, namei/nameiparent/dirlookup) are modelled from the
specification's own description, as noted on each definition.
-/

namespace Ov6

/-- Block size in bytes (src/kernel/fs.h: BSIZE). -/
def BSIZE : Nat := 1024

/-- Number of direct block addresses in an inode (src/kernel/fs.h: NDIRECT). -/
def NDIRECT : Nat := 12

/-- Number of addresses held by the indirect block
(src/kernel/fs.h: NINDIRECT = BSIZE / sizeof(uint), with 4-byte uint). -/
def NINDIRECT : Nat := BSIZE / 4

/-- Maximum number of blocks an inode can map
(src/kernel/fs.h: MAXFILE = NDIRECT + NINDIRECT). -/
def MAXFILE : Nat := NDIRECT + NINDIRECT

/-- Directory entry name length (src/kernel/fs.h: DIRSIZ). -/
def DIRSIZ : Nat := 14

/-- Maximum number of blocks any FS operation writes (src/kernel/param.h: MAXOPBLOCKS). -/
def MAXOPBLOCKS : Nat := 10

/-- Maximum data blocks in the on-disk log (src/kernel/param.h: LOGSIZE). -/
def LOGSIZE : Nat := MAXOPBLOCKS * 3

/-- Maximum file size in bytes: MAXFILE blocks of BSIZE bytes. -/
def MAXFILESIZE : Nat := MAXFILE * BSIZE

/-- Modelled from the spec: the capacity check of bmap (fs.c bmap is not in
src/): a logical block index is within an inode's capacity exactly when it is
below MAXFILE; bmap fails with FileTooLarge beyond it. -/
def withinCapacity (bn : Nat) : Bool := bn < MAXFILE

/-- C10: with a 1024-byte block, 12 direct pointers and 4-byte addresses an
inode maps at most MAXFILE = 12 + 1024/4 = 268 blocks; logical indices
0..267 are within capacity, index 268 or greater is beyond capacity, and
the maximum file size is 268 * 1024 = 274432 bytes. -/
theorem c10_maxfile_capacity :
    MAXFILE = 268 ∧
    (∀ bn : Nat, withinCapacity bn = true ↔ bn ≤ 267) ∧
    (∀ bn : Nat, withinCapacity bn = false ↔ 268 ≤ bn) ∧
    MAXFILESIZE = 274432 := by
  refine ⟨rfl, ?_, ?_, rfl⟩
  · intro bn
    simp only [withinCapacity, MAXFILE, NDIRECT, NINDIRECT, BSIZE,
      decide_eq_true_eq]
    omega
  · intro bn
    simp only [withinCapacity, MAXFILE, NDIRECT, NINDIRECT, BSIZE,
      decide_eq_false_iff_not, not_lt]

/-- Modelled from the spec: the byte count transferred by readi (fs.c readi is
not in src/): a read past end of file returns the bytes actually available,
fewer than requested, not an error; a read starting beyond the end transfers
nothing. -/
def readi (size off n : Nat) : Nat :=
  if size < off then 0 else min n (size - off)

/-- Modelled from the spec: the byte count transferred by writei (fs.c writei
is not in src/): a write that would extend the file beyond capacity is clipped
to the maximum representable size MAXFILESIZE and the shorter actual count is
returned to the caller, not an error. -/
def writei (size off n : Nat) : Option Nat :=
  if size < off then none else some (min n (MAXFILESIZE - off))

/-- C6: a writei whose range would extend the file beyond maximum capacity
transfers only up to MAXFILESIZE and returns the shorter actual count rather
than an error; a readi whose range extends past end-of-file returns fewer
bytes than requested rather than an error. -/
theorem c6_short_transfer (size off n : Nat)
    (hsz : size ≤ MAXFILESIZE) (hoff : off ≤ size) :
    (MAXFILESIZE < off + n →
      writei size off n = some (MAXFILESIZE - off) ∧ MAXFILESIZE - off < n) ∧
    (size < off + n → readi size off n = size - off ∧ size - off < n) ∧
    (writei size off n).isSome = true := by
  have hso : ¬ size < off := by omega
  refine ⟨?_, ?_, ?_⟩
  · intro hcap
    constructor
    · simp only [writei, if_neg hso, Option.some.injEq]
      omega
    · omega
  · intro heof
    constructor
    · simp only [readi, if_neg hso]
      omega
    · omega
  · simp [writei, hso]

/-- Witness for C6 at concrete sizes: a write of 1000 bytes at offset 274000
into a 274400-byte file is clipped to 432 bytes, and a read of the same range
returns 400 bytes. -/
theorem c6_short_transfer_witness :
    (MAXFILESIZE < 274000 + 1000 →
      writei 274400 274000 1000 = some (MAXFILESIZE - 274000) ∧
        MAXFILESIZE - 274000 < 1000) ∧
    (274400 < 274000 + 1000 →
      readi 274400 274000 1000 = 274400 - 274000 ∧ 274400 - 274000 < 1000) ∧
    (writei 274400 274000 1000).isSome = true :=
  c6_short_transfer 274400 274000 1000 (by decide) (by decide)

/-! The write-ahead log: on-disk log header, the log data region, and the home
data region, as the spec's recovery procedure sees them. -/

/-- On-disk log header: block count of the most recent transaction and the
destination block number of each logged block. -/
structure LogHeader where
  n : Nat
  blocks : List Nat
deriving DecidableEq

/-- The disk as recovery sees it: the log header, the log's data region
(slot index to content) and the home data region (block number to content). -/
structure Disk where
  header : LogHeader
  logData : Nat → Nat
  data : Nat → Nat

/-- The (destination, content) pairs recorded by the committed log header. -/
def headerPairs (d : Disk) : List (Nat × Nat) :=
  (List.range d.header.n).map (fun i => (d.header.blocks.getD i 0, d.logData i))

/-- Apply a list of (destination, content) writes to the data region in order. -/
def writeBlocks : List (Nat × Nat) → (Nat → Nat) → Nat → Nat
  | [], data => data
  | (b, c) :: rest, data => writeBlocks rest (fun x => if x = b then c else data x)

/-- Modelled from the spec: install_trans (log.c is not in src/): copy each
block recorded in the header from the log region to its home location. -/
def installTrans (d : Disk) : Nat → Nat :=
  writeBlocks (headerPairs d) d.data

/-- Modelled from the spec: recovery (log.c recover_from_log is not in src/):
read the log header; if its block count is nonzero, install every recorded
block to its home location and then zero the header. -/
def recover (d : Disk) : Disk :=
  if d.header.n = 0 then d
  else { header := { n := 0, blocks := d.header.blocks },
         logData := d.logData,
         data := installTrans d }

theorem recover_of_zero (d : Disk) (h : d.header.n = 0) : recover d = d := by
  simp [recover, h]

theorem recover_header_n (d : Disk) : (recover d).header.n = 0 := by
  by_cases h : d.header.n = 0
  · rw [recover_of_zero d h]; exact h
  · simp [recover, h]

/-- C2: recovery is idempotent: running it twice from any disk state gives the
same disk state as running it once. -/
theorem c2_recovery_idempotent (d : Disk) : recover (recover d) = recover d :=
  recover_of_zero (recover d) (recover_header_n d)

theorem writeBlocks_not_mem (pairs : List (Nat × Nat)) (data : Nat → Nat)
    (b : Nat) (hb : b ∉ pairs.map Prod.fst) :
    writeBlocks pairs data b = data b := by
  induction pairs generalizing data with
  | nil => rfl
  | cons p rest ih =>
    obtain ⟨pb, pc⟩ := p
    simp only [List.map_cons, List.mem_cons, not_or] at hb
    rw [writeBlocks, ih _ hb.2, if_neg hb.1]

theorem writeBlocks_mem (pairs : List (Nat × Nat)) (data : Nat → Nat)
    (b c : Nat) (hnd : (pairs.map Prod.fst).Nodup) (hmem : (b, c) ∈ pairs) :
    writeBlocks pairs data b = c := by
  induction pairs generalizing data with
  | nil => cases hmem
  | cons p rest ih =>
    obtain ⟨pb, pc⟩ := p
    simp only [List.map_cons, List.nodup_cons] at hnd
    rcases List.mem_cons.mp hmem with heq | htail
    · obtain ⟨hb, hc⟩ := Prod.mk.injEq .. ▸ heq
      subst hb; subst hc
      rw [writeBlocks, writeBlocks_not_mem _ _ _ hnd.1, if_pos rfl]
    · exact ih _ hnd.2 htail

/-- C1: crash atomicity. If the commit header write completed, so the header
records the transaction's (destination, content) pairs, then recovery installs
each of the transaction's blocks to its home location exactly once — each
destination holds its logged content, every other block is untouched — and
clears the header.  If the commit header write never completed (header count
0), recovery installs nothing and the disk reflects the pre-transaction
state. -/
theorem c1_crash_atomicity (d : Disk) (txn : List (Nat × Nat))
    (htxn : headerPairs d = txn) (hnodup : (txn.map Prod.fst).Nodup) :
    (∀ p ∈ txn, (recover d).data p.1 = p.2) ∧
    (∀ b : Nat, b ∉ txn.map Prod.fst → (recover d).data b = d.data b) ∧
    (recover d).header.n = 0 ∧
    (∀ d0 : Disk, d0.header.n = 0 → recover d0 = d0) := by
  by_cases h : d.header.n = 0
  · have htxnnil : txn = [] := by
      rw [← htxn]; simp [headerPairs, h]
    subst htxnnil
    rw [recover_of_zero d h]
    exact ⟨by simp, fun b _ => rfl, h, fun d0 h0 => recover_of_zero d0 h0⟩
  · have hdata : (recover d).data = writeBlocks txn d.data := by
      simp [recover, h, installTrans, htxn]
    refine ⟨?_, ?_, recover_header_n d, fun d0 h0 => recover_of_zero d0 h0⟩
    · intro p hp
      rw [hdata]
      exact writeBlocks_mem txn d.data p.1 p.2 hnodup (by simpa using hp)
    · intro b hb
      rw [hdata]
      exact writeBlocks_not_mem txn d.data b hb

/-- A concrete committed disk: the header records a two-block transaction
writing content 10 to block 3 and content 20 to block 7. -/
def diskW : Disk :=
  { header := { n := 2, blocks := [3, 7] },
    logData := fun i => if i = 0 then 10 else 20,
    data := fun _ => 0 }

/-- Witness for C1: recovery of the concrete committed disk installs 10 at
block 3 and 20 at block 7, leaves every other block alone, and clears the
header. -/
theorem c1_crash_atomicity_witness :
    (∀ p ∈ [(3, 10), (7, 20)], (recover diskW).data p.1 = p.2) ∧
    (∀ b : Nat, b ∉ [(3, 10), (7, 20)].map Prod.fst →
      (recover diskW).data b = diskW.data b) ∧
    (recover diskW).header.n = 0 ∧
    (∀ d0 : Disk, d0.header.n = 0 → recover d0 = d0) :=
  c1_crash_atomicity diskW [(3, 10), (7, 20)] (by decide) (by decide)

/-! The active transaction's slot list and log absorption.  A transaction is
the list of (destination block number, content) slots in the order the slots
were claimed. -/

/-- Modelled from the spec: log_write of content c to destination block b
(log.c log_write is not in src/): scan the transaction's slots for one already
keyed by destination b and reuse it with the latest content (absorption);
otherwise claim a fresh slot at the end. -/
def logWrite : List (Nat × Nat) → Nat → Nat → List (Nat × Nat)
  | [], b, c => [(b, c)]
  | p :: rest, b, c =>
    if p.1 = b then (b, c) :: rest else p :: logWrite rest b c

/-- Slots after one operation performs the writes ws in order, starting from
the transaction state txn. -/
def opLogFrom (txn ws : List (Nat × Nat)) : List (Nat × Nat) :=
  ws.foldl (fun t p => logWrite t p.1 p.2) txn

/-- Slots after one operation performs the writes ws in order, starting from
an empty transaction. -/
def opLog (ws : List (Nat × Nat)) : List (Nat × Nat) :=
  opLogFrom [] ws

/-- Content of the slot keyed by destination block b, if one is claimed. -/
def slotContent (txn : List (Nat × Nat)) (b : Nat) : Option Nat :=
  (txn.find? (fun p => p.1 == b)).map Prod.snd

/-- The content of the latest write to destination b among the writes ws. -/
def lastVal (ws : List (Nat × Nat)) (b : Nat) : Option Nat :=
  (ws.reverse.find? (fun p => p.1 == b)).map Prod.snd

theorem logWrite_dests_mem (txn : List (Nat × Nat)) (b c : Nat)
    (h : b ∈ txn.map Prod.fst) :
    (logWrite txn b c).map Prod.fst = txn.map Prod.fst := by
  induction txn with
  | nil => cases h
  | cons p rest ih =>
    rw [logWrite]
    by_cases hp : p.1 = b
    · rw [if_pos hp]; simp [hp]
    · rw [if_neg hp]
      simp only [List.map_cons, List.mem_cons] at h ⊢
      rcases h with h | h
      · exact absurd h.symm hp
      · rw [ih h]

theorem logWrite_dests_new (txn : List (Nat × Nat)) (b c : Nat)
    (h : b ∉ txn.map Prod.fst) :
    (logWrite txn b c).map Prod.fst = txn.map Prod.fst ++ [b] := by
  induction txn with
  | nil => rfl
  | cons p rest ih =>
    simp only [List.map_cons, List.mem_cons, not_or] at h
    rw [logWrite, if_neg (fun hp => h.1 hp.symm)]
    simp only [List.map_cons, List.cons_append, List.cons.injEq, true_and]
    exact ih h.2

theorem logWrite_nodup (txn : List (Nat × Nat)) (b c : Nat)
    (h : (txn.map Prod.fst).Nodup) :
    ((logWrite txn b c).map Prod.fst).Nodup := by
  by_cases hb : b ∈ txn.map Prod.fst
  · rw [logWrite_dests_mem txn b c hb]; exact h
  · rw [logWrite_dests_new txn b c hb]
    simp only [List.nodup_append, List.nodup_cons, List.nodup_nil]
    exact ⟨h, by simp, by simpa using hb⟩

theorem logWrite_toFinset (txn : List (Nat × Nat)) (b c : Nat) :
    ((logWrite txn b c).map Prod.fst).toFinset =
      insert b (txn.map Prod.fst).toFinset := by
  by_cases hb : b ∈ txn.map Prod.fst
  · rw [logWrite_dests_mem txn b c hb,
      Finset.insert_eq_self.mpr (List.mem_toFinset.mpr hb)]
  · rw [logWrite_dests_new txn b c hb]
    simp [Finset.union_comm, Finset.insert_eq]

theorem slotContent_logWrite_self (txn : List (Nat × Nat)) (b c : Nat) :
    slotContent (logWrite txn b c) b = some c := by
  induction txn with
  | nil => simp [logWrite, slotContent]
  | cons p rest ih =>
    rw [logWrite]
    by_cases hp : p.1 = b
    · rw [if_pos hp]; simp [slotContent]
    · rw [if_neg hp]
      unfold slotContent at ih ⊢
      rw [List.find?_cons_of_neg _ (by simpa using hp)]
      exact ih

theorem slotContent_logWrite_other (txn : List (Nat × Nat)) (b c b' : Nat)
    (hne : b' ≠ b) :
    slotContent (logWrite txn b c) b' = slotContent txn b' := by
  induction txn with
  | nil => simp [logWrite, slotContent, Ne.symm hne]
  | cons p rest ih =>
    rw [logWrite]
    by_cases hp : p.1 = b
    · rw [if_pos hp]
      unfold slotContent
      rw [List.find?_cons_of_neg _ (by simpa using Ne.symm hne),
        List.find?_cons_of_neg _
          (by simp only [beq_iff_eq, hp]; exact Ne.symm hne)]
    · rw [if_neg hp]
      unfold slotContent at ih ⊢
      by_cases hq : p.1 = b'
      · rw [List.find?_cons_of_pos _ (by simpa using hq),
          List.find?_cons_of_pos _ (by simpa using hq)]
      · rw [List.find?_cons_of_neg _ (by simpa using hq),
          List.find?_cons_of_neg _ (by simpa using hq)]
        exact ih

theorem opLogFrom_nodup (ws txn : List (Nat × Nat))
    (h : (txn.map Prod.fst).Nodup) :
    ((opLogFrom txn ws).map Prod.fst).Nodup := by
  induction ws generalizing txn with
  | nil => exact h
  | cons q ws ih => exact ih _ (logWrite_nodup txn q.1 q.2 h)

theorem opLogFrom_toFinset (ws txn : List (Nat × Nat)) :
    ((opLogFrom txn ws).map Prod.fst).toFinset =
      (txn.map Prod.fst).toFinset ∪ (ws.map Prod.fst).toFinset := by
  induction ws generalizing txn with
  | nil => simp [opLogFrom]
  | cons q ws ih =>
    have step : opLogFrom txn (q :: ws) = opLogFrom (logWrite txn q.1 q.2) ws := rfl
    rw [step, ih, logWrite_toFinset]
    simp [Finset.insert_union, Finset.union_insert]

theorem slotContent_opLogFrom (ws txn : List (Nat × Nat)) (b : Nat) :
    slotContent (opLogFrom txn ws) b =
      (lastVal ws b).orElse (fun _ => slotContent txn b) := by
  induction ws generalizing txn with
  | nil => simp [opLogFrom, lastVal]
  | cons q ws ih =>
    have step : opLogFrom txn (q :: ws) = opLogFrom (logWrite txn q.1 q.2) ws := rfl
    rw [step, ih]
    have hrev : lastVal (q :: ws) b =
        (lastVal ws b).orElse (fun _ => ([q].find? (fun p => p.1 == b)).map Prod.snd) := by
      simp only [lastVal, List.reverse_cons, List.find?_append]
      cases (ws.reverse.find? (fun p => p.1 == b)) <;> rfl
    rw [hrev]
    cases hlv : lastVal ws b with
    | some v => simp
    | none =>
      show slotContent (logWrite txn q.1 q.2) b =
        (([q].find? (fun p => p.1 == b)).map Prod.snd).orElse
          (fun _ => slotContent txn b)
      by_cases hq : q.1 = b
      · rw [List.find?_cons_of_pos _ (by simpa using hq)]
        show slotContent (logWrite txn q.1 q.2) b = some q.2
        rw [← hq]
        exact slotContent_logWrite_self txn q.1 q.2
      · rw [List.find?_cons_of_neg _ (by simpa using hq)]
        show slotContent (logWrite txn q.1 q.2) b = slotContent txn b
        exact slotContent_logWrite_other txn q.1 q.2 b (fun h => hq h.symm)

/-- C3: log absorption and the per-operation budget.  For one operation
performing the writes ws in order: each destination block owns at most one
slot (the destination list is duplicate-free), the slot keyed by a destination
holds the latest content written to it, and when the operation touches at most
MAXOPBLOCKS distinct destination blocks it claims at most MAXOPBLOCKS
slots. -/
theorem c3_absorption_budget (ws : List (Nat × Nat))
    (hbudget : ((ws.map Prod.fst).toFinset).card ≤ MAXOPBLOCKS) :
    ((opLog ws).map Prod.fst).Nodup ∧
    (∀ b : Nat, slotContent (opLog ws) b = lastVal ws b) ∧
    (opLog ws).length ≤ MAXOPBLOCKS := by
  have hnd : ((opLog ws).map Prod.fst).Nodup :=
    opLogFrom_nodup ws [] (by simp)
  refine ⟨hnd, ?_, ?_⟩
  · intro b
    rw [opLog, slotContent_opLogFrom]
    cases lastVal ws b <;> simp [slotContent]
  · have hlen : (opLog ws).length = ((opLog ws).map Prod.fst).length := by
      rw [List.length_map]
    have hcard : ((opLog ws).map Prod.fst).toFinset.card =
        ((opLog ws).map Prod.fst).length :=
      List.toFinset_card_of_nodup hnd
    have hfin : ((opLog ws).map Prod.fst).toFinset =
        (ws.map Prod.fst).toFinset := by
      rw [opLog, opLogFrom_toFinset]; simp
    rw [hlen, ← hcard, hfin]
    exact hbudget

/-- Witness for C3 at a concrete operation: writes to blocks 5, 6 and again 5
use two slots, the slot for block 5 holding the latest content. -/
theorem c3_absorption_budget_witness :
    ((opLog [(5, 1), (6, 2), (5, 3)]).map Prod.fst).Nodup ∧
    (∀ b : Nat, slotContent (opLog [(5, 1), (6, 2), (5, 3)]) b =
      lastVal [(5, 1), (6, 2), (5, 3)] b) ∧
    (opLog [(5, 1), (6, 2), (5, 3)]).length ≤ MAXOPBLOCKS :=
  c3_absorption_budget [(5, 1), (6, 2), (5, 3)] (by decide)

/-! The buffer cache.  The cache is a list of entries ordered by recency,
head = most recently used, tail = least recently used. -/

/-- One buffer-cache slot: the cached block number and its reference count. -/
structure BufEntry where
  blockno : Nat
  ref : Nat
deriving DecidableEq

/-- A cache entry for block x with reference count 0 (resident, unpinned). -/
def freeBuf (x : Nat) : BufEntry := { blockno := x, ref := 0 }

/-- Modelled from the spec: the hit path of bget (bio.c is not in src/): find
the cached entry for block b, returning it together with the cache without
it. -/
def extractBuf (b : Nat) : List BufEntry → Option (BufEntry × List BufEntry)
  | [] => none
  | e :: rest =>
    if e.blockno = b then some (e, rest)
    else match extractBuf b rest with
      | some (f, l) => some (f, e :: l)
      | none => none

/-- Modelled from the spec: the eviction choice of bget (bio.c is not in
src/): the victim is the last entry with reference count zero, i.e. the least
recently used unpinned entry; returns the victim and the remaining cache, or
none when every entry is pinned. -/
def evictLru : List BufEntry → Option (BufEntry × List BufEntry)
  | [] => none
  | e :: rest =>
    match evictLru rest with
    | some (v, l) => some (v, e :: l)
    | none => if e.ref = 0 then some (e, rest) else none

/-- Modelled from the spec: bget (bio.c is not in src/): on a hit increment
the entry's reference count and promote it to most recently used; on a miss
evict the least recently used unpinned entry and repurpose it for block b with
reference count 1; none models the fatal no-evictable-entry condition. -/
def bget (cache : List BufEntry) (b : Nat) : Option (List BufEntry) :=
  match extractBuf b cache with
  | some (e, rest) => some ({ blockno := b, ref := e.ref + 1 } :: rest)
  | none =>
    match evictLru cache with
    | some (_, rest) => some ({ blockno := b, ref := 1 } :: rest)
    | none => none

/-- Modelled from the spec: brelse of the handle bget just returned (the most
recently used entry): decrement its reference count; release by itself changes
no recency and evicts nothing. -/
def brelseHead : List BufEntry → List BufEntry
  | [] => []
  | e :: rest => { e with ref := e.ref - 1 } :: rest

/-- One unpinned access to block b: bget immediately followed by brelse. -/
def access1 (cache : List BufEntry) (b : Nat) : Option (List BufEntry) :=
  (bget cache b).map brelseHead

/-- A sequence of unpinned accesses, failing if any access fails. -/
def accessSeq (cache : List BufEntry) (bs : List Nat) : Option (List BufEntry) :=
  bs.foldl (fun oc b => oc.bind (fun c => access1 c b)) (some cache)

theorem extractBuf_none (cache : List BufEntry) (b : Nat)
    (h : ∀ e ∈ cache, e.blockno ≠ b) : extractBuf b cache = none := by
  induction cache with
  | nil => rfl
  | cons e rest ih =>
    rw [extractBuf, if_neg (h e (List.mem_cons_self e rest)),
      ih (fun f hf => h f (List.mem_cons_of_mem e hf))]

theorem evictLru_pinned (cache : List BufEntry)
    (h : ∀ e ∈ cache, e.ref ≠ 0) : evictLru cache = none := by
  induction cache with
  | nil => rfl
  | cons e rest ih =>
    rw [evictLru, ih (fun f hf => h f (List.mem_cons_of_mem e hf)),
      if_neg (h e (List.mem_cons_self e rest))]

theorem evictLru_pinned_of_none (cache : List BufEntry)
    (h : evictLru cache = none) : ∀ e ∈ cache, e.ref ≠ 0 := by
  induction cache with
  | nil => intro e he; cases he
  | cons e rest ih =>
    rw [evictLru] at h
    cases hev : evictLru rest with
    | some p => rw [hev] at h; cases h
    | none =>
      rw [hev] at h
      by_cases he : e.ref = 0
      · rw [if_pos he] at h; cases h
      · intro f hf
        rcases List.mem_cons.mp hf with hfe | hfr
        · rw [hfe]; exact he
        · exact ih hev f hfr

theorem evictLru_spec (cache : List BufEntry) (v : BufEntry)
    (rest : List BufEntry) (h : evictLru cache = some (v, rest)) :
    v.ref = 0 ∧ ∃ pre post, cache = pre ++ v :: post ∧ rest = pre ++ post ∧
      ∀ e ∈ post, e.ref ≠ 0 := by
  induction cache generalizing rest with
  | nil => cases h
  | cons e tail ih =>
    rw [evictLru] at h
    cases hev : evictLru tail with
    | some p =>
      obtain ⟨v', l⟩ := p
      rw [hev] at h
      obtain ⟨hv, hrest⟩ := Prod.mk.injEq .. ▸ Option.some.injEq .. ▸ h
      subst hv
      obtain ⟨hr, pre, post, htail, hl, hpost⟩ := ih l hev
      exact ⟨hr, e :: pre, post, by rw [htail]; rfl,
        by rw [← hrest, hl]; rfl, hpost⟩
    | none =>
      rw [hev] at h
      by_cases he : e.ref = 0
      · rw [if_pos he] at h
        obtain ⟨hv, hrest⟩ := Prod.mk.injEq .. ▸ Option.some.injEq .. ▸ h
        subst hv
        exact ⟨he, [], tail, rfl, hrest.symm,
          fun f hf => evictLru_pinned_of_none tail hev f hf⟩
      · rw [if_neg he] at h
        cases h

theorem evictLru_snoc_all_zero (l : List BufEntry) (v : BufEntry)
    (h : ∀ e ∈ l ++ [v], e.ref = 0) : evictLru (l ++ [v]) = some (v, l) := by
  induction l with
  | nil =>
    rw [List.nil_append, evictLru]
    show (match evictLru [] with
      | some (w, m) => some (w, v :: m)
      | none => if v.ref = 0 then some (v, []) else none) = some (v, [])
    rw [show evictLru [] = none from rfl,
      if_pos (h v (List.mem_append_right [] (List.mem_singleton_self v)))]
  | cons e l ih =>
    rw [List.cons_append, evictLru,
      ih (fun f hf => h f (List.mem_cons_of_mem e hf))]

theorem access1_fresh (cache : List BufEntry) (b : Nat) (hne : cache ≠ [])
    (href : ∀ e ∈ cache, e.ref = 0) (hfr : ∀ e ∈ cache, e.blockno ≠ b) :
    access1 cache b = some (freeBuf b :: cache.dropLast) := by
  rcases cache.eq_nil_or_concat with hnil | ⟨l, v, hlv⟩
  · exact absurd hnil hne
  · rw [List.concat_eq_append] at hlv
    subst hlv
    rw [access1, bget, extractBuf_none _ _ hfr, evictLru_snoc_all_zero l v href]
    simp [brelseHead, freeBuf]

theorem accessSeq_none (bs : List Nat) :
    bs.foldl (fun oc b => oc.bind (fun c => access1 c b)) none = none := by
  induction bs with
  | nil => rfl
  | cons b bs ih => exact ih

theorem accessSeq_cons (cache : List BufEntry) (b : Nat) (bs : List Nat) :
    accessSeq cache (b :: bs) =
      match access1 cache b with
      | some c => accessSeq c bs
      | none => none := by
  rw [accessSeq, List.foldl_cons]
  have hinit : (some cache).bind (fun c => access1 c b) = access1 cache b := rfl
  rw [hinit]
  cases h : access1 cache b with
  | some c => rfl
  | none => exact accessSeq_none bs

theorem accessSeq_append (cache : List BufEntry) (xs ys : List Nat) :
    accessSeq cache (xs ++ ys) =
      match accessSeq cache xs with
      | some c => accessSeq c ys
      | none => none := by
  induction xs generalizing cache with
  | nil => rfl
  | cons x xs ih =>
    rw [List.cons_append, accessSeq_cons, accessSeq_cons]
    cases h : access1 cache x with
    | some c => exact ih c
    | none => rfl

theorem accessSeq_fresh (bs : List Nat) : ∀ cache : List BufEntry,
    bs.Nodup → (∀ x ∈ bs, ∀ e ∈ cache, e.blockno ≠ x) →
    (∀ e ∈ cache, e.ref = 0) → bs.length ≤ cache.length →
    accessSeq cache bs =
      some (bs.reverse.map freeBuf ++ cache.take (cache.length - bs.length)) := by
  induction bs with
  | nil =>
    intro cache _ _ _ _
    rw [accessSeq, List.foldl_nil]
    simp [List.take_length]
  | cons b bs ih =>
    intro cache hnd hfr href hlen
    have hne : cache ≠ [] := by
      intro hc
      rw [hc] at hlen
      simp at hlen
    have hacc : access1 cache b = some (freeBuf b :: cache.dropLast) :=
      access1_fresh cache b hne href
        (fun e he => hfr b (List.mem_cons_self b bs) e he)
    rw [accessSeq_cons, hacc]
    have hclen : 1 ≤ cache.length := by
      cases hcc : cache with
      | nil => exact absurd hcc hne
      | cons e t => simp
    have hlen2 : (freeBuf b :: cache.dropLast).length = cache.length := by
      simp [List.length_dropLast]
      omega
    have hnd2 : bs.Nodup := (List.nodup_cons.mp hnd).2
    have hbnotbs : b ∉ bs := (List.nodup_cons.mp hnd).1
    have hfr2 : ∀ x ∈ bs, ∀ e ∈ freeBuf b :: cache.dropLast, e.blockno ≠ x := by
      intro x hx e he
      rcases List.mem_cons.mp he with hee | hed
      · rw [hee]
        show b ≠ x
        intro hbx
        exact hbnotbs (hbx ▸ hx)
      · exact hfr x (List.mem_cons_of_mem b hx) e (List.dropLast_subset cache hed)
    have href2 : ∀ e ∈ freeBuf b :: cache.dropLast, e.ref = 0 := by
      intro e he
      rcases List.mem_cons.mp he with hee | hed
      · rw [hee]; rfl
      · exact href e (List.dropLast_subset cache hed)
    have hlen3 : bs.length ≤ (freeBuf b :: cache.dropLast).length := by
      rw [hlen2]
      simp only [List.length_cons] at hlen
      omega
    show accessSeq (freeBuf b :: cache.dropLast) bs =
      some ((b :: bs).reverse.map freeBuf ++
        cache.take (cache.length - (b :: bs).length))
    rw [ih _ hnd2 hfr2 href2 hlen3, hlen2]
    have htake : (freeBuf b :: cache.dropLast).take (cache.length - bs.length) =
        freeBuf b :: cache.take (cache.length - (b :: bs).length) := by
      have hpos : 0 < cache.length - bs.length := by
        simp only [List.length_cons] at hlen
        omega
      obtain ⟨k, hk⟩ : ∃ k, cache.length - bs.length = k + 1 :=
        ⟨cache.length - bs.length - 1, by omega⟩
      rw [hk, List.take_succ_cons]
      have hkval : k = cache.length - (b :: bs).length := by
        simp only [List.length_cons]
        omega
      rw [List.dropLast_eq_take]
      rw [List.take_take]
      have hmin : min k (cache.length - 1) = k := by
        simp only [List.length_cons] at hlen
        omega
      rw [hmin, hkval]
    rw [htake]
    simp

/-- C5: LRU eviction of the buffer cache.  Main scenario: starting from any
full cache of C unpinned entries, after C+1 accesses to distinct fresh
unpinned blocks b1..b(C+1) in order, the entry evicted to admit b(C+1) is b1:
the final cache holds exactly b(C+1)..b2 and b1 is gone.  Moreover eviction
only ever selects an entry with reference count zero, preferring the least
recently used such entry (every entry less recently used than the victim is
pinned), and when no zero-reference entry exists bget fails, the fatal
resource-exhaustion condition. -/
theorem c5_lru_eviction (C : Nat) (init : List BufEntry) (bs : List Nat)
    (hC : 1 ≤ C) (hlen : init.length = C) (hbs : bs.length = C + 1)
    (hnd : bs.Nodup)
    (hfresh : ∀ x ∈ bs, ∀ e ∈ init, e.blockno ≠ x)
    (href : ∀ e ∈ init, e.ref = 0) :
    accessSeq init bs = some ((bs.drop 1).reverse.map freeBuf) ∧
    (∀ (cache : List BufEntry) (v : BufEntry) (rest : List BufEntry),
      evictLru cache = some (v, rest) →
      v.ref = 0 ∧ ∃ pre post, cache = pre ++ v :: post ∧ rest = pre ++ post ∧
        ∀ e ∈ post, e.ref ≠ 0) ∧
    (∀ (cache : List BufEntry) (b : Nat), (∀ e ∈ cache, e.blockno ≠ b) →
      (∀ e ∈ cache, e.ref ≠ 0) → bget cache b = none) := by
  refine ⟨?_, evictLru_spec, ?_⟩
  · rcases bs.eq_nil_or_concat with hnil | ⟨ls, z, hlz⟩
    · rw [hnil] at hbs; cases hbs
    · rw [List.concat_eq_append] at hlz
      subst hlz
      have hls : ls.length = C := by
        simp only [List.length_append, List.length_singleton] at hbs
        omega
      have hndls : ls.Nodup ∧ z ∉ ls := by
        rw [List.nodup_append] at hnd
        exact ⟨hnd.1, fun hz => hnd.2.2 hz (List.mem_singleton_self z)⟩
      have hstep1 : accessSeq init ls = some (ls.reverse.map freeBuf) := by
        rw [accessSeq_fresh ls init hndls.1
          (fun x hx e he => hfresh x (List.mem_append_left [z] hx) e he)
          href (by omega)]
        rw [hls, hlen]
        simp
      rw [accessSeq_append, hstep1]
      have hne2 : ls.reverse.map freeBuf ≠ [] := by
        intro hc
        have : ls = [] := by
          rcases ls with _ | ⟨a, t⟩
          · rfl
          · simp at hc
        rw [this] at hls
        simp at hls
        omega
      have hacc2 : access1 (ls.reverse.map freeBuf) z =
          some (freeBuf z :: (ls.reverse.map freeBuf).dropLast) :=
        access1_fresh _ z hne2
          (by
            intro e he
            simp only [List.mem_map, List.mem_reverse] at he
            obtain ⟨x, _, hx⟩ := he
            rw [← hx]
            rfl)
          (by
            intro e he
            simp only [List.mem_map, List.mem_reverse] at he
            obtain ⟨x, hxls, hx⟩ := he
            rw [← hx]
            show x ≠ z
            intro hxz
            exact hndls.2 (hxz ▸ hxls))
      show access1 (ls.reverse.map freeBuf) z =
        some (((ls ++ [z]).drop 1).reverse.map freeBuf)
      rw [hacc2]
      rcases ls with _ | ⟨a, t⟩
      · simp only [List.length_nil] at hls
        omega
      · have hdrop : ((a :: t).reverse.map freeBuf).dropLast =
            t.reverse.map freeBuf := by
          rw [List.reverse_cons, List.map_append]
          simp
        rw [hdrop]
        have hgoal : ((a :: t) ++ [z]).drop 1 = t ++ [z] := rfl
        rw [hgoal, List.reverse_append]
        simp
  · intro cache b hb hp
    rw [bget, extractBuf_none cache b hb, evictLru_pinned cache hp]

/-- Witness for C5 with capacity 2: after accessing fresh blocks 1, 2, 3 the
cache holds 3 and 2, and block 1 — the least recently used — was evicted. -/
theorem c5_lru_eviction_witness :
    accessSeq [freeBuf 100, freeBuf 101] [1, 2, 3] =
      some (([1, 2, 3].drop 1).reverse.map freeBuf) ∧
    (∀ (cache : List BufEntry) (v : BufEntry) (rest : List BufEntry),
      evictLru cache = some (v, rest) →
      v.ref = 0 ∧ ∃ pre post, cache = pre ++ v :: post ∧ rest = pre ++ post ∧
        ∀ e ∈ post, e.ref ≠ 0) ∧
    (∀ (cache : List BufEntry) (b : Nat), (∀ e ∈ cache, e.blockno ≠ b) →
      (∀ e ∈ cache, e.ref ≠ 0) → bget cache b = none) :=
  c5_lru_eviction 2 [freeBuf 100, freeBuf 101] [1, 2, 3] (by decide) (by decide)
    (by decide) (by decide) (by decide) (by decide)

/-! The inode layer: on-disk inodes, the block allocation bitmap, and the
in-memory inode cache entry, as itrunc and iput see them.  Inode type 0 is
the free type tag; block address 0 means no block. -/

/-- On-disk inode record: type tag (0 = free), link count, byte size, direct
block addresses and the indirect block address. -/
structure DInode where
  typ : Nat
  nlink : Nat
  size : Nat
  addrs : List Nat
  indirect : Nat
deriving DecidableEq

/-- The disk as the inode layer sees it: the inode region, the allocation
bitmap (true = allocated) and the content of each block read as an address
array (used for the indirect block). -/
structure FsDisk where
  dinodes : Nat → DInode
  blockUsed : Nat → Bool
  blockData : Nat → List Nat

/-- In-memory inode cache entry: inode number, reference count, validity flag
and a copy of the on-disk fields. -/
structure MInode where
  inum : Nat
  ref : Nat
  valid : Bool
  typ : Nat
  nlink : Nat
  size : Nat
  addrs : List Nat
  indirect : Nat
deriving DecidableEq

/-- Modelled from the spec: bfree (fs.c is not in src/): clear one data
block's bit in the allocation bitmap. -/
def bfree (fs : FsDisk) (b : Nat) : FsDisk :=
  { fs with blockUsed := fun x => if x = b then false else fs.blockUsed x }

/-- Free every nonzero address in a list (address 0 means no block). -/
def bfreeList (fs : FsDisk) (bs : List Nat) : FsDisk :=
  bs.foldl (fun f b => if b = 0 then f else bfree f b) fs

/-- Modelled from the spec: iupdate (fs.c is not in src/): copy the in-memory
inode's fields to its on-disk entry. -/
def iupdate (fs : FsDisk) (ip : MInode) : FsDisk :=
  { fs with dinodes := fun i =>
      if i = ip.inum then
        { typ := ip.typ, nlink := ip.nlink, size := ip.size,
          addrs := ip.addrs, indirect := ip.indirect }
      else fs.dinodes i }

/-- Modelled from the spec: itrunc (fs.c is not in src/): free every direct
block, every block listed in the indirect block and the indirect block itself,
reset the size to 0 and write the inode back to disk. -/
def itrunc (fs : FsDisk) (ip : MInode) : FsDisk × MInode :=
  let fs1 := bfreeList fs ip.addrs
  let fs2 := if ip.indirect = 0 then fs1
    else bfree (bfreeList fs1 (fs.blockData ip.indirect)) ip.indirect
  let ip2 := { ip with addrs := ip.addrs.map (fun _ => 0),
                       indirect := 0, size := 0 }
  (iupdate fs2 ip2, ip2)

/-- Modelled from the spec: iput (fs.c is not in src/): decrement the
reference count; when the last reference is dropped and the link count is also
0, truncate the inode's data, mark the on-disk entry free (type 0) and
invalidate the cache slot; otherwise touch nothing on disk. -/
def iput (fs : FsDisk) (ip : MInode) : FsDisk × MInode :=
  if ip.ref = 1 ∧ ip.nlink = 0 then
    let r := itrunc fs ip
    let ip2 : MInode := { r.2 with typ := 0 }
    (iupdate r.1 ip2, { ip2 with ref := 0, valid := false })
  else (fs, { ip with ref := ip.ref - 1 })

theorem bfreeList_false (bs : List Nat) (fs : FsDisk) (x : Nat)
    (h : fs.blockUsed x = false) : (bfreeList fs bs).blockUsed x = false := by
  induction bs generalizing fs with
  | nil => exact h
  | cons b bs ih =>
    show (bfreeList (if b = 0 then fs else bfree fs b) bs).blockUsed x = false
    by_cases hb : b = 0
    · rw [if_pos hb]; exact ih fs h
    · rw [if_neg hb]
      refine ih (bfree fs b) ?_
      show (if x = b then false else fs.blockUsed x) = false
      by_cases hx : x = b
      · rw [if_pos hx]
      · rw [if_neg hx]; exact h

theorem bfreeList_mem (bs : List Nat) (fs : FsDisk) (x : Nat)
    (hx : x ∈ bs) (hnz : x ≠ 0) : (bfreeList fs bs).blockUsed x = false := by
  induction bs generalizing fs with
  | nil => cases hx
  | cons b bs ih =>
    show (bfreeList (if b = 0 then fs else bfree fs b) bs).blockUsed x = false
    rcases List.mem_cons.mp hx with hxb | hxbs
    · subst hxb
      rw [if_neg hnz]
      exact bfreeList_false bs _ x (by show (if x = x then false else _) = false; rw [if_pos rfl])
    · by_cases hb : b = 0
      · rw [if_pos hb]; exact ih fs hxbs
      · rw [if_neg hb]; exact ih (bfree fs b) hxbs

theorem bfreeList_blockData (bs : List Nat) (fs : FsDisk) :
    (bfreeList fs bs).blockData = fs.blockData := by
  induction bs generalizing fs with
  | nil => rfl
  | cons b bs ih =>
    show (bfreeList (if b = 0 then fs else bfree fs b) bs).blockData = _
    by_cases hb : b = 0
    · rw [if_pos hb]; exact ih fs
    · rw [if_neg hb]; exact ih (bfree fs b)

theorem iupdate_dinodes_self (fs : FsDisk) (ip : MInode) :
    (iupdate fs ip).dinodes ip.inum =
      { typ := ip.typ, nlink := ip.nlink, size := ip.size,
        addrs := ip.addrs, indirect := ip.indirect } := by
  show (if ip.inum = ip.inum then
      ({ typ := ip.typ, nlink := ip.nlink, size := ip.size,
         addrs := ip.addrs, indirect := ip.indirect } : DInode)
    else fs.dinodes ip.inum) = _
  rw [if_pos rfl]

/-- C8: itrunc frame condition.  itrunc frees every nonzero direct block and,
when the indirect address is nonzero, every nonzero block listed in the
indirect block together with the indirect block itself; the in-memory inode's
size is reset to 0 while its type and link count are unchanged, and the
on-disk entry written back keeps the type and link count with size 0. -/
theorem c8_itrunc_frame (fs : FsDisk) (ip : MInode) :
    (itrunc fs ip).2.size = 0 ∧
    (itrunc fs ip).2.typ = ip.typ ∧
    (itrunc fs ip).2.nlink = ip.nlink ∧
    (∀ a ∈ ip.addrs, a ≠ 0 → ((itrunc fs ip).1).blockUsed a = false) ∧
    (ip.indirect ≠ 0 → ((itrunc fs ip).1).blockUsed ip.indirect = false ∧
      ∀ a ∈ fs.blockData ip.indirect, a ≠ 0 →
        ((itrunc fs ip).1).blockUsed a = false) ∧
    (((itrunc fs ip).1).dinodes ip.inum).typ = ip.typ ∧
    (((itrunc fs ip).1).dinodes ip.inum).nlink = ip.nlink ∧
    (((itrunc fs ip).1).dinodes ip.inum).size = 0 := by
  have hused : ((itrunc fs ip).1).blockUsed =
      (if ip.indirect = 0 then bfreeList fs ip.addrs
        else bfree (bfreeList (bfreeList fs ip.addrs) (fs.blockData ip.indirect))
          ip.indirect).blockUsed := rfl
  have hdi : ((itrunc fs ip).1).dinodes ip.inum =
      { typ := ip.typ, nlink := ip.nlink, size := 0,
        addrs := ip.addrs.map (fun _ => 0), indirect := 0 } := by
    show (if ip.inum = ip.inum then _ else _) = _
    rw [if_pos rfl]
  refine ⟨rfl, rfl, rfl, ?_, ?_, by rw [hdi], by rw [hdi], by rw [hdi]⟩
  · intro a ha hnz
    rw [hused]
    by_cases hind : ip.indirect = 0
    · rw [if_pos hind]
      exact bfreeList_mem ip.addrs fs a ha hnz
    · rw [if_neg hind]
      show (if a = ip.indirect then false else _) = false
      by_cases hai : a = ip.indirect
      · rw [if_pos hai]
      · rw [if_neg hai]
        exact bfreeList_false _ _ a (bfreeList_mem ip.addrs fs a ha hnz)
  · intro hind
    rw [hused, if_neg hind]
    constructor
    · show (if ip.indirect = ip.indirect then false else _) = false
      rw [if_pos rfl]
    · intro a ha hnz
      show (if a = ip.indirect then false else _) = false
      by_cases hai : a = ip.indirect
      · rw [if_pos hai]
      · rw [if_neg hai]
        exact bfreeList_mem _ _ a ha hnz

/-- C4: iput reference-count and reclamation behaviour.  iput always leaves
the reference count decremented by one.  When the last reference is dropped
with link count 0, the on-disk entry becomes type free (0) and every data
block — direct and through the indirect block — is freed.  When the last
reference is dropped with a nonzero link count, the disk (inode entry, bitmap
and data) is left completely unchanged. -/
theorem c4_iput_reclaim (fs : FsDisk) (ip : MInode) :
    (iput fs ip).2.ref = ip.ref - 1 ∧
    (ip.ref = 1 → ip.nlink = 0 →
      (((iput fs ip).1).dinodes ip.inum).typ = 0 ∧
      (∀ a ∈ ip.addrs, a ≠ 0 → ((iput fs ip).1).blockUsed a = false) ∧
      (ip.indirect ≠ 0 → ((iput fs ip).1).blockUsed ip.indirect = false ∧
        ∀ a ∈ fs.blockData ip.indirect, a ≠ 0 →
          ((iput fs ip).1).blockUsed a = false)) ∧
    (ip.ref = 1 → ip.nlink ≠ 0 → (iput fs ip).1 = fs) := by
  by_cases hc : ip.ref = 1 ∧ ip.nlink = 0
  · obtain ⟨h8a, h8b, h8c, h8d, h8e, h8f, h8g, h8h⟩ := c8_itrunc_frame fs ip
    have hstep : iput fs ip =
        (iupdate (itrunc fs ip).1 { (itrunc fs ip).2 with typ := 0 },
          { (itrunc fs ip).2 with typ := 0, ref := 0, valid := false }) := by
      rw [iput, if_pos hc]
    rw [hstep]
    refine ⟨by rw [hc.1], fun _ _ => ⟨?_, ?_, ?_⟩, fun _ hn => absurd hc.2 hn⟩
    · have h := iupdate_dinodes_self (itrunc fs ip).1
        { (itrunc fs ip).2 with typ := 0 }
      have hnum : ({ (itrunc fs ip).2 with typ := 0 } : MInode).inum = ip.inum :=
        rfl
      rw [hnum] at h
      rw [h]
    · intro a ha hnz
      show ((itrunc fs ip).1).blockUsed a = false
      exact h8d a ha hnz
    · intro hind
      show ((itrunc fs ip).1).blockUsed ip.indirect = false ∧ _
      exact h8e hind
  · have hstep : iput fs ip = (fs, { ip with ref := ip.ref - 1 }) := by
      rw [iput, if_neg hc]
    rw [hstep]
    refine ⟨rfl, fun h1 h0 => absurd ⟨h1, h0⟩ hc, fun _ _ => rfl⟩

/-! Directory lookup and path resolution.  Paths are lists of characters,
components are split at the path separator; a directory's content is a list
of (name, inode number) entries. -/

/-- Path-resolution errors named by the spec. -/
inductive FsError where
  | notFound
  | notADirectory
  | nameTooLong
deriving DecidableEq

/-- The file-system tree as path resolution sees it: which inodes are
directories, each directory's entry list, and the root inode number. -/
structure PathFs where
  isDir : Nat → Bool
  entries : Nat → List (List Char × Nat)
  root : Nat

/-- Modelled from the spec: dirlookup (fs.c is not in src/): linear scan of
the directory's entries for a matching name, returning the first matching
entry's inode number, or none when the entry is absent. -/
def dirlookup (fs : PathFs) (dir : Nat) (name : List Char) : Option Nat :=
  ((fs.entries dir).find? (fun e => e.1 == name)).map Prod.snd

/-- Modelled from the spec: the shared traversal loop of namei and
nameiparent (fs.c namex is not in src/): resolve components left to right by
repeated dirlookup; a component longer than DIRSIZ fails with NameTooLong, a
lookup inside a non-directory fails with NotADirectory, an absent component
fails with NotFound; with parent = true stop one component short. -/
def namex (fs : PathFs) : Nat → List (List Char) → Bool → Except FsError Nat
  | cur, [], parent =>
    if parent then Except.error FsError.notFound else Except.ok cur
  | cur, c :: rest, parent =>
    if DIRSIZ < c.length then Except.error FsError.nameTooLong
    else if fs.isDir cur = false then Except.error FsError.notADirectory
    else if parent && rest.isEmpty then Except.ok cur
    else match dirlookup fs cur c with
      | none => Except.error FsError.notFound
      | some nxt => namex fs nxt rest parent

/-- Split a character list into path components at the separator, dropping
empty components.  Modelled from the spec: repeated skipelem (fs.c is not in
src/). -/
def splitPathAux : List Char → List Char → List (List Char)
  | [], acc => if acc.isEmpty then [] else [acc.reverse]
  | ch :: rest, acc =>
    if ch = '/' then
      (if acc.isEmpty then splitPathAux rest []
       else acc.reverse :: splitPathAux rest [])
    else splitPathAux rest (ch :: acc)

/-- The components of a path. -/
def splitPath (p : List Char) : List (List Char) :=
  splitPathAux p []

/-- Modelled from the spec: namei (fs.c is not in src/): resolve a whole path
from the root to an inode. -/
def namei (fs : PathFs) (p : List Char) : Except FsError Nat :=
  namex fs fs.root (splitPath p) false

/-- Modelled from the spec: nameiparent (fs.c is not in src/): resolve a path
to its final component's parent directory, returning the parent's inode and
the final component name. -/
def nameiparent (fs : PathFs) (p : List Char) : Except FsError (Nat × List Char) :=
  match namex fs fs.root (splitPath p) true, (splitPath p).getLast? with
  | Except.ok dir, some name => Except.ok (dir, name)
  | Except.ok _, none => Except.error FsError.notFound
  | Except.error e, _ => Except.error e

theorem namex_nil_false (fs : PathFs) (cur : Nat) :
    namex fs cur [] false = Except.ok cur := rfl

theorem namex_nil_true (fs : PathFs) (cur : Nat) :
    namex fs cur [] true = Except.error FsError.notFound := rfl

theorem namex_cons (fs : PathFs) (cur : Nat) (c : List Char)
    (rest : List (List Char)) (parent : Bool) :
    namex fs cur (c :: rest) parent =
      (if DIRSIZ < c.length then Except.error FsError.nameTooLong
       else if fs.isDir cur = false then Except.error FsError.notADirectory
       else if parent && rest.isEmpty then Except.ok cur
       else match dirlookup fs cur c with
         | none => Except.error FsError.notFound
         | some nxt => namex fs nxt rest parent) := rfl

theorem namex_parent_dirlookup (comps : List (List Char)) :
    ∀ (fs : PathFs) (cur ino : Nat), comps ≠ [] →
    namex fs cur comps false = Except.ok ino →
    ∃ dir name, namex fs cur comps true = Except.ok dir ∧
      comps.getLast? = some name ∧ dirlookup fs dir name = some ino := by
  induction comps with
  | nil => intro fs cur ino hne _; exact absurd rfl hne
  | cons c rest ih =>
    intro fs cur ino _ h
    rw [namex_cons] at h
    by_cases hlen : DIRSIZ < c.length
    · rw [if_pos hlen] at h; cases h
    · rw [if_neg hlen] at h
      by_cases hdir : fs.isDir cur = false
      · rw [if_pos hdir] at h; cases h
      · rw [if_neg hdir] at h
        rw [if_neg (by simp : ¬((false && rest.isEmpty) = true))] at h
        cases hdl : dirlookup fs cur c with
        | none => rw [hdl] at h; cases h
        | some nxt =>
          rw [hdl] at h
          cases rest with
          | nil =>
            have h' : Except.ok nxt = Except.ok ino := h
            have hni : nxt = ino := by injection h'
            refine ⟨cur, c, ?_, rfl, by rw [hdl, hni]⟩
            rw [namex_cons, if_neg hlen, if_neg hdir]
            rw [show (true && List.isEmpty []) = true from rfl]
            rfl
          | cons r rs =>
            have h' : namex fs nxt (r :: rs) false = Except.ok ino := h
            obtain ⟨dir, name, h1, h2, h3⟩ :=
              ih fs nxt ino (List.cons_ne_nil r rs) h'
            refine ⟨dir, name, ?_, by rw [← h2]; rfl, h3⟩
            rw [namex_cons, if_neg hlen, if_neg hdir]
            rw [show (true && List.isEmpty (r :: rs)) = false from rfl]
            rw [if_neg (by simp), hdl]
            exact h1

/-- C7: path resolution equivalence.  For every path that namei resolves to
an inode, nameiparent on the same path succeeds with the parent directory and
the final component name, and dirlookup of that final component in that
parent yields the very inode namei produced. -/
theorem c7_path_resolution_equiv (fs : PathFs) (p : List Char) (ino : Nat)
    (hne : splitPath p ≠ []) (h : namei fs p = Except.ok ino) :
    ∃ dir name, nameiparent fs p = Except.ok (dir, name) ∧
      dirlookup fs dir name = some ino := by
  obtain ⟨dir, name, h1, h2, h3⟩ :=
    namex_parent_dirlookup (splitPath p) fs fs.root ino hne h
  refine ⟨dir, name, ?_, h3⟩
  rw [nameiparent, h1, h2]

/-- A small concrete tree: root 1 contains entry a -> 2, directory 2 contains
entry b -> 3, inode 3 is a file. -/
def fsW : PathFs :=
  { isDir := fun n => n == 1 || n == 2,
    entries := fun n =>
      if n = 1 then [(['a'], 2)]
      else if n = 2 then [(['b'], 3)]
      else [],
    root := 1 }

/-- Witness for C7: on the concrete tree, namei of the path /a/b yields inode
3, and nameiparent plus dirlookup of the final component agree with it. -/
theorem c7_path_resolution_equiv_witness :
    ∃ dir name, nameiparent fsW ['/', 'a', '/', 'b'] = Except.ok (dir, name) ∧
      dirlookup fsW dir name = some 3 :=
  c7_path_resolution_equiv fsW ['/', 'a', '/', 'b'] 3 (by decide) (by rfl)

theorem namex_append (pre : List (List Char)) :
    ∀ (fs : PathFs) (cur d : Nat) (rest : List (List Char)) (parent : Bool),
    rest ≠ [] → namex fs cur pre false = Except.ok d →
    namex fs cur (pre ++ rest) parent = namex fs d rest parent := by
  induction pre with
  | nil =>
    intro fs cur d rest parent _ h
    have h' : Except.ok cur = Except.ok d := h
    have hcd : cur = d := by injection h'
    rw [List.nil_append, hcd]
  | cons c pre ih =>
    intro fs cur d rest parent hrest h
    rw [namex_cons] at h
    by_cases hlen : DIRSIZ < c.length
    · rw [if_pos hlen] at h; cases h
    · rw [if_neg hlen] at h
      by_cases hdir : fs.isDir cur = false
      · rw [if_pos hdir] at h; cases h
      · rw [if_neg hdir] at h
        rw [if_neg (by simp : ¬((false && pre.isEmpty) = true))] at h
        cases hdl : dirlookup fs cur c with
        | none => rw [hdl] at h; cases h
        | some nxt =>
          rw [hdl] at h
          have h' : namex fs nxt pre false = Except.ok d := h
          rw [List.cons_append, namex_cons, if_neg hlen, if_neg hdir]
          have hemp : (pre ++ rest).isEmpty = false := by
            cases hpr : pre ++ rest with
            | nil => exact absurd (List.append_eq_nil.mp hpr).2 hrest
            | cons x xs => rfl
          rw [hemp, Bool.and_false]
          rw [if_neg (by simp : ¬(false = true)), hdl]
          exact ih fs nxt d rest parent hrest h'

/-- C9: path-resolution error taxonomy.  Let pre be a prefix of components
that resolves (parent flag false) to inode d.  If the next component is longer
than DIRSIZ, both namei-style and nameiparent-style traversal (either parent
flag) fail with NameTooLong.  If the next component has a legal length but d
is not a directory, traversal fails with NotADirectory.  If d is a directory
but the next component is absent from it — and the traversal does not stop at
d as nameiparent does on a final component — it fails with NotFound. -/
theorem c9_namex_errors (fs : PathFs) (cur d : Nat) (pre post : List (List Char))
    (c : List Char) (parent : Bool)
    (hpre : namex fs cur pre false = Except.ok d) :
    (DIRSIZ < c.length →
      namex fs cur (pre ++ c :: post) parent = Except.error FsError.nameTooLong) ∧
    (c.length ≤ DIRSIZ → fs.isDir d = false →
      namex fs cur (pre ++ c :: post) parent = Except.error FsError.notADirectory) ∧
    (c.length ≤ DIRSIZ → fs.isDir d = true → dirlookup fs d c = none →
      (parent = false ∨ post ≠ []) →
      namex fs cur (pre ++ c :: post) parent = Except.error FsError.notFound) := by
  have happ := namex_append pre fs cur d (c :: post) parent
    (List.cons_ne_nil c post) hpre
  rw [happ]
  refine ⟨?_, ?_, ?_⟩
  · intro hlen
    rw [namex_cons, if_pos hlen]
  · intro hlen hdir
    rw [namex_cons, if_neg (by omega : ¬DIRSIZ < c.length), if_pos hdir]
  · intro hlen hdir hdl hstop
    rw [namex_cons, if_neg (by omega : ¬DIRSIZ < c.length),
      if_neg (by rw [hdir]; simp : ¬fs.isDir d = false)]
    have hcond : (parent && post.isEmpty) = false := by
      rcases hstop with hp | hp
      · rw [hp, Bool.false_and]
      · cases hpost : post with
        | nil => exact absurd hpost hp
        | cons x xs => simp
    rw [hcond]
    rw [if_neg (by simp : ¬(false = true)), hdl]

/-- Witness for C9 on the concrete tree: below directory 2 (reached from the
root via component a), the 15-character component x14 is too long, so
resolution fails with NameTooLong. -/
theorem c9_namex_errors_witness :
    (DIRSIZ < (['x', 'x', 'x', 'x', 'x', 'x', 'x', 'x', 'x', 'x', 'x', 'x',
        'x', 'x', 'x'] : List Char).length →
      namex fsW 1 ([['a']] ++ ['x', 'x', 'x', 'x', 'x', 'x', 'x', 'x', 'x',
          'x', 'x', 'x', 'x', 'x', 'x'] :: []) false =
        Except.error FsError.nameTooLong) ∧
    ((['x', 'x', 'x', 'x', 'x', 'x', 'x', 'x', 'x', 'x', 'x', 'x', 'x', 'x',
        'x'] : List Char).length ≤ DIRSIZ → fsW.isDir 2 = false →
      namex fsW 1 ([['a']] ++ ['x', 'x', 'x', 'x', 'x', 'x', 'x', 'x', 'x',
          'x', 'x', 'x', 'x', 'x', 'x'] :: []) false =
        Except.error FsError.notADirectory) ∧
    ((['x', 'x', 'x', 'x', 'x', 'x', 'x', 'x', 'x', 'x', 'x', 'x', 'x', 'x',
        'x'] : List Char).length ≤ DIRSIZ → fsW.isDir 2 = true →
      dirlookup fsW 2 ['x', 'x', 'x', 'x', 'x', 'x', 'x', 'x', 'x', 'x', 'x',
        'x', 'x', 'x', 'x'] = none →
      (false = false ∨ ([] : List (List Char)) ≠ []) →
      namex fsW 1 ([['a']] ++ ['x', 'x', 'x', 'x', 'x', 'x', 'x', 'x', 'x',
          'x', 'x', 'x', 'x', 'x', 'x'] :: []) false =
        Except.error FsError.notFound) :=
  c9_namex_errors fsW 1 2 [['a']] []
    ['x', 'x', 'x', 'x', 'x', 'x', 'x', 'x', 'x', 'x', 'x', 'x', 'x', 'x', 'x']
    false (by rfl)
